import Mathlib

/-!
Verification of the DFA exposer service.

The service (src/main.rs) exposes two RPC handlers, `check` and `minimize`.
The `minimize` handler clones the incoming `Dfa`, minimizes the clone, and
aggregates the resulting old-name-to-new-name renaming map into a
new-name-to-set-of-old-names mapping by an explicit loop; that loop is
embedded here directly from the source.  The `Dfa` value type and its
`check`/`minimize` operations live in the `lammes_automata_theory` library
crate, which is not part of this repository's sources; they are modelled
from the specification (sections 3, 4.1-4.3 and 7).
-/

namespace AutomataExposer

/-- Association-list lookup with decidable key equality; models lookup in a
Rust hash map represented as a list of key/value pairs (first match wins). -/
def lookupKey {α β : Type} [DecidableEq α] : List (α × β) → α → Option β
  | [], _ => none
  | (k2, v) :: rest, k => if k2 = k then some v else lookupKey rest k

/-- The keys of an association list are pairwise distinct, as they are in any
value of a Rust hash map. -/
def keysNodup {α β : Type} (l : List (α × β)) : Prop := (l.map Prod.fst).Nodup

instance {α β : Type} [DecidableEq α] (l : List (α × β)) : Decidable (keysNodup l) := by
  unfold keysNodup; infer_instance

/-- The groups mapping built by the minimize handler: new state name to the
set of old state names that were merged into it.  Models the handler's
HashMap of String to HashSet of String. -/
abbrev Groups : Type := String → Option (Finset String)

/-- HashMap insert: map key `k` to value `v`, leaving other keys unchanged. -/
def mapInsert (m : Groups) (k : String) (v : Finset String) : Groups :=
  fun x => if x = k then some v else m x

/-- One iteration of the aggregation loop in `RpcImpl::minimize`
(src/main.rs, lines 40-51): look up the new name; if a set is present,
insert the old name into it; otherwise insert a fresh empty set, look the
key up again, unwrap, and insert the old name into the fresh set.
A `none` result models a panic of the `unwrap`. -/
def aggregateStep (m : Groups) (old new : String) : Option Groups :=
  match m new with
  | some s => some (mapInsert m new (insert old s))
  | none =>
    match mapInsert m new ∅ new with
    | some s => some (mapInsert (mapInsert m new ∅) new (insert old s))
    | none => none

/-- The aggregation loop of `RpcImpl::minimize` over the remaining renaming
pairs, starting from the accumulated map `m`; propagates a potential panic. -/
def aggregateFrom (m : Groups) : List (String × String) → Option Groups
  | [] => some m
  | p :: rest =>
    match aggregateStep m p.1 p.2 with
    | some m2 => aggregateFrom m2 rest
    | none => none

/-- The full aggregation performed by `RpcImpl::minimize`: run the loop over
all renaming pairs starting from the freshly created empty map. -/
def aggregate (ops : List (String × String)) : Option Groups :=
  aggregateFrom (fun _ => none) ops

/-- Total version of `aggregateStep`, producing the same result whenever the
loop body does not panic. -/
def stepT (m : Groups) (old new : String) : Groups :=
  match m new with
  | some s => mapInsert m new (insert old s)
  | none => mapInsert (mapInsert m new ∅) new (insert old ∅)

/-- Total version of `aggregateFrom`. -/
def aggregateFromT (m : Groups) : List (String × String) → Groups
  | [] => m
  | p :: rest => aggregateFromT (stepT m p.1 p.2) rest

/-- Total version of `aggregate`. -/
def aggregateT (ops : List (String × String)) : Groups :=
  aggregateFromT (fun _ => none) ops

/-- Modelled from the spec: the MalformedAutomaton validation error of the
`lammes_automata_theory` library crate (absent from src/); spec section 7
subdivides it into invalid start, invalid accepting member, and a transition
referencing an unknown state or symbol. -/
inductive MalformedAutomaton : Type
  | invalidStart : MalformedAutomaton
  | invalidAccepting : MalformedAutomaton
  | invalidTransition : MalformedAutomaton
deriving DecidableEq

/-- Modelled from the spec: the Dfa value type of the
`lammes_automata_theory` library crate (absent from src/); spec section 3:
a set of states, an alphabet, a partial transition mapping stored as a
key/value collection, a start state and a set of accepting states. -/
structure Dfa : Type where
  states : Finset String
  alphabet : Finset String
  transitions : List ((String × String) × String)
  start : String
  accepting : Finset String
deriving DecidableEq

namespace Dfa

/-- The transition partial function: look up the (state, symbol) key. -/
def delta (d : Dfa) (q a : String) : Option String :=
  lookupKey d.transitions (q, a)

/-- Modelled from the spec: structural validity (spec section 3, invariants
1-3): the start state belongs to the state set, accepting states belong to
the state set, and every transition entry references known states and a
known symbol. -/
def valid (d : Dfa) : Prop :=
  d.start ∈ d.states ∧
  (∀ q ∈ d.accepting, q ∈ d.states) ∧
  (∀ e ∈ d.transitions, e.1.1 ∈ d.states ∧ e.1.2 ∈ d.alphabet ∧ e.2 ∈ d.states)

instance (d : Dfa) : Decidable d.valid := by
  unfold valid; infer_instance

/-- Modelled from the spec: the validation gate (spec sections 4.1 and 7)
that runs before any algorithm; reports the first violated invariant. -/
def validateE (d : Dfa) : Option MalformedAutomaton :=
  if ¬ d.start ∈ d.states then some MalformedAutomaton.invalidStart
  else if ¬ ∀ q ∈ d.accepting, q ∈ d.states then some MalformedAutomaton.invalidAccepting
  else if ¬ ∀ e ∈ d.transitions, e.1.1 ∈ d.states ∧ e.1.2 ∈ d.alphabet ∧ e.2 ∈ d.states then
    some MalformedAutomaton.invalidTransition
  else none

/-- Modelled from the spec: the acceptance simulation (spec section 4.2)
from a given current state: consume the input symbol by symbol; on a missing
transition the run is stuck, the result is not accepted and the trace stops
at the current state; on full consumption acceptance is membership of the
final state in the accepting set.  Returns the accepted flag and the trace. -/
def runFrom (d : Dfa) (q : String) : List String → Bool × List String
  | [] => (decide (q ∈ d.accepting), [q])
  | a :: rest =>
    match d.delta q a with
    | none => (false, [q])
    | some t => ((d.runFrom t rest).1, q :: (d.runFrom t rest).2)

/-- Modelled from the spec: the check operation of the library crate (absent
from src/): simulate from the start state. -/
def check (d : Dfa) (input : List String) : Bool × List String :=
  d.runFrom d.start input

/-- Number of input symbols successfully consumed when simulating from `q`. -/
def consumedFrom (d : Dfa) (q : String) : List String → Nat
  | [] => 0
  | a :: rest =>
    match d.delta q a with
    | none => 0
    | some t => d.consumedFrom t rest + 1

/-- Whether the simulation from `q` gets stuck on a missing transition
before the input is fully consumed. -/
def stuckFrom (d : Dfa) (q : String) : List String → Bool
  | [] => false
  | a :: rest =>
    match d.delta q a with
    | none => true
    | some t => d.stuckFrom t rest

/-- One expansion step of reachability (spec section 4.3, step 1): add the
targets of all transitions whose source is already reached. -/
def reachStep (d : Dfa) (R : Finset String) : Finset String :=
  R ∪ ((d.transitions.filter fun e => decide (e.1.1 ∈ R)).map fun e => e.2).toFinset

/-- Iterated reachability expansion starting from the start state. -/
def reachN (d : Dfa) : Nat → Finset String
  | 0 => {d.start}
  | n + 1 => d.reachStep (d.reachN n)

/-- Modelled from the spec: the set of states reachable from the start state
by following defined transitions (spec section 4.3, step 1); the expansion
stabilizes after at most as many steps as there are states. -/
def reach (d : Dfa) : Finset String := d.reachN d.states.card

/-- One refinement round (spec section 4.3, step 3): two states stay related
when they were related before and, for every alphabet symbol in the fixed
canonical (sorted) order, they have the same signature entry: both lack the
transition, or both transition into previously related states. -/
def relStep (d : Dfa) (r : String → String → Bool) (q q' : String) : Bool :=
  r q q' &&
    (d.alphabet.sort (· ≤ ·)).all fun a =>
      match d.delta q a, d.delta q' a with
      | none, none => true
      | some t, some t' => r t t'
      | _, _ => false

/-- Modelled from the spec: the partition-refinement indistinguishability
relation after `n` rounds (spec section 4.3, steps 2-3).  Round 0 separates
accepting from non-accepting states; each further round refines by
signatures. -/
def rel (d : Dfa) : Nat → String → String → Bool
  | 0, q, q' => decide ((q ∈ d.accepting) ↔ (q' ∈ d.accepting))
  | n + 1, q, q' => d.relStep (d.rel n) q q'

/-- Modelled from the spec: the refinement relation at its fixpoint; the
number of rounds is bounded, so iterating the square of the state count many
times is guaranteed to pass the fixpoint (spec section 4.3, step 3). -/
def relFinal (d : Dfa) (q q' : String) : Bool :=
  d.rel (d.states.card * d.states.card) q q'

/-- Auxiliary for the fixpoint argument: the pairs of reachable states that
round `n` of the refinement already distinguishes.  Refinement only splits
blocks, so this set grows with `n` and is bounded by the square of the
reachable set; hence the refinement stabilizes. -/
def distinctPairs (d : Dfa) (n : Nat) : Finset (String × String) :=
  (d.reach ×ˢ d.reach).filter fun p => d.rel n p.1 p.2 = false

/-- The block (equivalence class) of a reachable state under the final
refinement relation. -/
def blockOf (d : Dfa) (q : String) : Finset String :=
  d.reach.filter fun p => d.relFinal q p = true

/-- Modelled from the spec: canonical naming (spec section 4.3, step 4): the
representative of a state's block is the lexicographically smallest member. -/
def rep (d : Dfa) (q : String) : String :=
  if h : (d.blockOf q).Nonempty then (d.blockOf q).min' h else q

/-- Modelled from the spec: the renaming map produced by minimization: every
reachable old state mapped to its block representative (spec section 4.3,
step 4), listed in a canonical order. -/
def renamingOps (d : Dfa) : List (String × String) :=
  (d.reach.sort (· ≤ ·)).map fun q => (q, d.rep q)

/-- Modelled from the spec: the minimal automaton (spec section 4.3, step
5): one state per block named by its representative; transitions of
reachable states mapped through the renaming and de-duplicated; renamed
start; accepting blocks renamed. -/
def minimal (d : Dfa) : Dfa where
  states := d.reach.image d.rep
  alphabet := d.alphabet
  transitions :=
    ((d.transitions.filter fun e => decide (e.1.1 ∈ d.reach)).map
      fun e => ((d.rep e.1.1, e.1.2), d.rep e.2)).dedup
  start := d.rep d.start
  accepting := (d.accepting ∩ d.reach).image d.rep

/-- Modelled from the spec: the library crate's minimize method, which in
Rust mutates the receiver in place and returns the renaming map; modelled by
explicit state passing: the returned pair holds the post-mutation value of
the receiver and the renaming map. -/
def minimizeMut (d : Dfa) : Dfa × List (String × String) :=
  (d.minimal, d.renamingOps)

end Dfa

/-- Rust Clone on the plain data struct Dfa: produces an equal, independent
value. -/
def clone (d : Dfa) : Dfa := d

/-- The `check` RPC handler (`RpcImpl::check`, src/main.rs lines 28-30)
behind the validation gate: a malformed automaton is rejected before
simulation, otherwise the library check result is returned. -/
def checkHandler (dfa : Dfa) (input : List String) :
    Except MalformedAutomaton (Bool × List String) :=
  match dfa.validateE with
  | some e => Except.error e
  | none => Except.ok (dfa.check input)

/-- The `minimize` RPC handler (`RpcImpl::minimize`, src/main.rs lines
32-53) behind the validation gate: clone the input, minimize the clone,
aggregate the renaming map into groups with the handler's loop, and return
the minimized automaton together with the groups.  The outer `Option` models
a potential panic of the loop's unwrap (`none`). -/
def minimizeHandler (dfa : Dfa) :
    Option (Except MalformedAutomaton (Dfa × Groups)) :=
  match dfa.validateE with
  | some e => some (Except.error e)
  | none =>
    match aggregate (clone dfa).minimizeMut.2 with
    | some g => some (Except.ok ((clone dfa).minimizeMut.1, g))
    | none => none

/-- The body of `RpcImpl::minimize` with the caller-supplied binding made
explicit: the handler clones `dfa` and lets the library's mutating minimize
act on the clone; the second component records the final value of the `dfa`
binding itself, which no mutating operation ever receives. -/
def minimizeBodyWithInput (dfa : Dfa) :
    (Dfa × List (String × String)) × Dfa :=
  ((clone dfa).minimizeMut, dfa)

/-- Structural identity of two automaton values: equal sets and maps,
irrespective of the order in which the transition key/value pairs are
listed. -/
def structEquiv (d d' : Dfa) : Prop :=
  d.states = d'.states ∧ d.alphabet = d'.alphabet ∧
  d.transitions.Perm d'.transitions ∧ d.start = d'.start ∧
  d.accepting = d'.accepting

instance (d d' : Dfa) : Decidable (structEquiv d d') := by
  unfold structEquiv; infer_instance

/-- Example automaton (spec section 8, scenario 1): two states on a single
letter, accepting after an odd number of letters. -/
def dfaEx : Dfa where
  states := ({"q0", "q1"} : Finset String)
  alphabet := ({"a"} : Finset String)
  transitions := [(("q0", "a"), "q1"), (("q1", "a"), "q0")]
  start := "q0"
  accepting := ({"q1"} : Finset String)

/-- Example automaton (spec section 8, scenario 2): q1 and q2 are
behaviorally identical and are merged by minimization. -/
def dfaMerge : Dfa where
  states := ({"q0", "q1", "q2"} : Finset String)
  alphabet := ({"a", "b"} : Finset String)
  transitions := [(("q0", "a"), "q1"), (("q0", "b"), "q2"),
    (("q1", "a"), "q1"), (("q1", "b"), "q2"),
    (("q2", "a"), "q1"), (("q2", "b"), "q2")]
  start := "q0"
  accepting := ({"q1", "q2"} : Finset String)

/-- Example malformed automaton (spec section 8, scenario 5): the start
state is not a member of the state set. -/
def dfaBad : Dfa where
  states := ({"q0"} : Finset String)
  alphabet := ({"a"} : Finset String)
  transitions := []
  start := "qX"
  accepting := (∅ : Finset String)

/-! ## Lookup lemmas -/

theorem lookupKey_mem {α β : Type} [DecidableEq α] {k : α} {v : β} :
    ∀ {l : List (α × β)}, lookupKey l k = some v → (k, v) ∈ l := by
  intro l
  induction l with
  | nil => intro h; simp [lookupKey] at h
  | cons e rest ih =>
    obtain ⟨k2, v2⟩ := e
    intro h
    rw [lookupKey] at h
    by_cases he : k2 = k
    · rw [if_pos he] at h
      injection h with h
      subst he; subst h
      exact List.mem_cons_self _ _
    · rw [if_neg he] at h
      exact List.mem_cons_of_mem _ (ih h)

theorem mem_lookupKey {α β : Type} [DecidableEq α] {k : α} {v : β} :
    ∀ {l : List (α × β)}, keysNodup l → (k, v) ∈ l → lookupKey l k = some v := by
  intro l
  induction l with
  | nil => intro _ h; simp at h
  | cons e rest ih =>
    obtain ⟨k2, v2⟩ := e
    intro hnd hm
    have hnd2 : keysNodup rest := (List.nodup_cons.mp hnd).2
    rcases List.mem_cons.mp hm with h | h
    · injection h with h1 h2
      subst h1; subst h2
      rw [lookupKey, if_pos rfl]
    · have hk : k2 ≠ k := by
        intro hkk
        subst hkk
        exact (List.nodup_cons.mp hnd).1 (List.mem_map.mpr ⟨(k2, v), h, rfl⟩)
      rw [lookupKey, if_neg hk]
      exact ih hnd2 h

theorem lookupKey_eq_none {α β : Type} [DecidableEq α] {k : α} :
    ∀ {l : List (α × β)}, lookupKey l k = none ↔ ∀ v, (k, v) ∉ l := by
  intro l
  induction l with
  | nil => simp [lookupKey]
  | cons e rest ih =>
    obtain ⟨k2, v2⟩ := e
    by_cases he : k2 = k
    · subst he
      rw [lookupKey, if_pos rfl]
      constructor
      · intro h; cases h
      · intro h
        exact absurd (List.mem_cons_self _ _) (h v2)
    · rw [lookupKey, if_neg he]
      rw [ih]
      constructor
      · intro h v hv
        rcases List.mem_cons.mp hv with h1 | h1
        · exact he (congrArg Prod.fst h1).symm
        · exact h v h1
      · intro h v hv
        exact h v (List.mem_cons_of_mem _ hv)

theorem lookupKey_of_forall_eq {α β : Type} [DecidableEq α] {k : α} {v : β} :
    ∀ {l : List (α × β)}, (k, v) ∈ l → (∀ v2, (k, v2) ∈ l → v2 = v) →
      lookupKey l k = some v := by
  intro l
  induction l with
  | nil => intro h; simp at h
  | cons e rest ih =>
    obtain ⟨k2, v2⟩ := e
    intro hm hall
    by_cases he : k2 = k
    · subst he
      rw [lookupKey, if_pos rfl]
      have : v2 = v := hall v2 (List.mem_cons_self _ _)
      rw [this]
    · rw [lookupKey, if_neg he]
      rcases List.mem_cons.mp hm with h1 | h1
      · exact absurd (congrArg Prod.fst h1).symm he
      · exact ih h1 fun v3 hv3 => hall v3 (List.mem_cons_of_mem _ hv3)

theorem lookupKey_perm {α β : Type} [DecidableEq α] {k : α} {l l2 : List (α × β)}
    (hnd : keysNodup l) (hp : l.Perm l2) : lookupKey l k = lookupKey l2 k := by
  have hnd2 : keysNodup l2 := ((hp.map Prod.fst).nodup_iff).mp hnd
  cases hv : lookupKey l k with
  | none =>
    symm
    rw [lookupKey_eq_none] at hv ⊢
    intro v hv2
    exact hv v (hp.symm.subset hv2)
  | some v =>
    exact (mem_lookupKey hnd2 (hp.subset (lookupKey_mem hv))).symm

/-! ## Aggregation loop lemmas -/

theorem stepT_apply (m : Groups) (old new n : String) :
    stepT m old new n =
      if n = new then some (insert old ((m new).getD ∅)) else m n := by
  rw [stepT]
  cases hm : m new with
  | none =>
    simp only [mapInsert, hm]
    by_cases h : n = new <;> simp [h, hm]
  | some s => simp [mapInsert, hm]

theorem aggregateStep_eq (m : Groups) (old new : String) :
    aggregateStep m old new = some (stepT m old new) := by
  rw [aggregateStep, stepT]
  cases hm : m new with
  | none => simp [mapInsert]
  | some s => rfl

theorem aggregateFrom_eq (ops : List (String × String)) :
    ∀ m : Groups, aggregateFrom m ops = some (aggregateFromT m ops) := by
  induction ops with
  | nil => intro m; rfl
  | cons p rest ih =>
    intro m
    rw [aggregateFrom, aggregateFromT, aggregateStep_eq]
    exact ih _

theorem aggregate_eq (ops : List (String × String)) :
    aggregate ops = some (aggregateT ops) :=
  aggregateFrom_eq ops _

/-- Characterization of the aggregation loop: the set stored at key `n`
collects the first components of all pairs whose second component is `n`,
together with whatever the starting map already stored at `n`; keys never
touched keep their starting value. -/
theorem aggregateFromT_char (ops : List (String × String)) :
    ∀ (m : Groups) (n : String),
      aggregateFromT m ops n =
        if (ops.filter fun p => decide (p.2 = n)) = [] then m n
        else some (((ops.filter fun p => decide (p.2 = n)).map Prod.fst).toFinset ∪
          (m n).getD ∅) := by
  induction ops with
  | nil => intro m n; simp [aggregateFromT]
  | cons p rest ih =>
    intro m n
    obtain ⟨o, nn⟩ := p
    rw [aggregateFromT, ih]
    by_cases hn : nn = n
    · subst hn
      have hstep : stepT m o nn nn = some (insert o ((m nn).getD ∅)) := by
        rw [stepT_apply, if_pos rfl]
      by_cases hrest : (rest.filter fun p => decide (p.2 = nn)) = []
      · simp [hrest, hstep]
        ext x
        simp
      · rw [if_neg hrest]
        have : (((o, nn) :: rest).filter fun p => decide (p.2 = nn)) =
            (o, nn) :: (rest.filter fun p => decide (p.2 = nn)) := by
          simp [List.filter_cons]
        rw [this, if_neg (by simp)]
        rw [hstep]
        congr 1
        simp only [List.map_cons, List.toFinset_cons, Option.getD_some]
        ext x
        simp only [Finset.mem_union, Finset.mem_insert, List.mem_toFinset]
        tauto
    · have hstep : stepT m o nn n = m n := by
        rw [stepT_apply, if_neg (Ne.symm hn)]
      have : (((o, nn) :: rest).filter fun p => decide (p.2 = n)) =
          rest.filter fun p => decide (p.2 = n) := by
        simp [List.filter_cons, hn]
      rw [this, hstep]

theorem aggregateT_char (ops : List (String × String)) (n : String) :
    aggregateT ops n =
      if (ops.filter fun p => decide (p.2 = n)) = [] then none
      else some (((ops.filter fun p => decide (p.2 = n)).map Prod.fst).toFinset) := by
  rw [aggregateT, aggregateFromT_char]
  by_cases h : (ops.filter fun p => decide (p.2 = n)) = []
  · simp [h]
  · simp [h]

theorem mem_aggregateT (ops : List (String × String)) (o n : String) :
    o ∈ (aggregateT ops n).getD ∅ ↔ (o, n) ∈ ops := by
  rw [aggregateT_char]
  by_cases h : (ops.filter fun p => decide (p.2 = n)) = []
  · rw [if_pos h]
    simp only [Option.getD_none, Finset.not_mem_empty, false_iff]
    intro hmem
    have : (o, n) ∈ ops.filter fun p => decide (p.2 = n) :=
      List.mem_filter.mpr ⟨hmem, by simp⟩
    rw [h] at this
    simp at this
  · rw [if_neg h]
    simp only [Option.getD_some, List.mem_toFinset, List.mem_map]
    constructor
    · rintro ⟨p, hp, rfl⟩
      have := List.mem_filter.mp hp
      have h2 : p.2 = n := by simpa using this.2
      have : p = (p.1, n) := by rw [← h2]
      rw [← this]
      exact (List.mem_filter.mp hp).1
    · intro hmem
      exact ⟨(o, n), List.mem_filter.mpr ⟨hmem, by simp⟩, rfl⟩

/-! ## Simulation lemmas -/

theorem runFrom_trace_length (d : Dfa) :
    ∀ (s : List String) (q : String),
      (d.runFrom q s).2.length = d.consumedFrom q s + 1 := by
  intro s
  induction s with
  | nil => intro q; simp [Dfa.runFrom, Dfa.consumedFrom]
  | cons a rest ih =>
    intro q
    cases h : d.delta q a with
    | none => simp [Dfa.runFrom, Dfa.consumedFrom, h]
    | some t => simp [Dfa.runFrom, Dfa.consumedFrom, h, ih]

theorem consumedFrom_le (d : Dfa) :
    ∀ (s : List String) (q : String), d.consumedFrom q s ≤ s.length := by
  intro s
  induction s with
  | nil => intro q; simp [Dfa.consumedFrom]
  | cons a rest ih =>
    intro q
    cases h : d.delta q a with
    | none => simp [Dfa.consumedFrom, h]
    | some t =>
      simp only [Dfa.consumedFrom, h, List.length_cons]
      exact Nat.add_le_add_right (ih t) 1

theorem stuckFrom_false_iff (d : Dfa) :
    ∀ (s : List String) (q : String),
      d.stuckFrom q s = false ↔ d.consumedFrom q s = s.length := by
  intro s
  induction s with
  | nil => intro q; simp [Dfa.stuckFrom, Dfa.consumedFrom]
  | cons a rest ih =>
    intro q
    cases h : d.delta q a with
    | none => simp [Dfa.stuckFrom, Dfa.consumedFrom, h]
    | some t => simp [Dfa.stuckFrom, Dfa.consumedFrom, h, ih]

theorem accept_not_stuck (d : Dfa) :
    ∀ (s : List String) (q : String),
      (d.runFrom q s).1 = true → d.stuckFrom q s = false := by
  intro s
  induction s with
  | nil => intro q _; simp [Dfa.stuckFrom]
  | cons a rest ih =>
    intro q hacc
    cases h : d.delta q a with
    | none => rw [Dfa.runFrom, h] at hacc; cases hacc
    | some t =>
      rw [Dfa.runFrom, h] at hacc
      rw [Dfa.stuckFrom, h]
      exact ih t hacc

theorem stuck_not_accept (d : Dfa) (s : List String) (q : String)
    (h : d.stuckFrom q s = true) : (d.runFrom q s).1 = false := by
  cases hacc : (d.runFrom q s).1 with
  | false => rfl
  | true => rw [accept_not_stuck d s q hacc] at h; cases h

/-! ## Validation lemmas -/

theorem validateE_eq_none (d : Dfa) : d.validateE = none ↔ d.valid := by
  rw [Dfa.validateE, Dfa.valid]
  by_cases h1 : d.start ∈ d.states
  · rw [if_neg (not_not_intro h1)]
    by_cases h2 : ∀ q ∈ d.accepting, q ∈ d.states
    · rw [if_neg (not_not_intro h2)]
      by_cases h3 : ∀ e ∈ d.transitions, e.1.1 ∈ d.states ∧ e.1.2 ∈ d.alphabet ∧ e.2 ∈ d.states
      · rw [if_neg (not_not_intro h3)]
        constructor
        · intro _; exact ⟨h1, h2, h3⟩
        · intro _; rfl
      · rw [if_pos h3]
        constructor
        · intro h; cases h
        · intro hv; exact absurd hv.2.2 h3
    · rw [if_pos h2]
      constructor
      · intro h; cases h
      · intro hv; exact absurd hv.2.1 h2
  · rw [if_pos h1]
    constructor
    · intro h; cases h
    · intro hv; exact absurd hv.1 h1

/-! ## A growing chain of finsets inside a finite universe stabilizes -/

theorem finset_chain_stab {α : Type} [DecidableEq α] (g : Nat → Finset α)
    (U : Finset α) (hmono : ∀ n, g n ⊆ g (n + 1)) (hsub : ∀ n, g n ⊆ U) :
    ∃ n, n ≤ U.card ∧ g (n + 1) = g n := by
  by_contra hc
  push_neg at hc
  have key : ∀ n, n ≤ U.card + 1 → n ≤ (g n).card := by
    intro n
    induction n with
    | zero => intro _; exact Nat.zero_le _
    | succ k ih =>
      intro hk
      have h1 : k ≤ (g k).card := ih (Nat.le_of_succ_le hk)
      have hne := hc k (Nat.le_of_succ_le_succ hk)
      have hss : g k ⊂ g (k + 1) :=
        Finset.ssubset_iff_subset_ne.mpr ⟨hmono k, fun he => hne he.symm⟩
      have := Finset.card_lt_card hss
      omega
  have h2 := key (U.card + 1) (Nat.le_refl _)
  have h3 := Finset.card_le_card (hsub (U.card + 1))
  omega

/-! ## Reachability lemmas -/

theorem reachN_subset_succ (d : Dfa) (n : Nat) : d.reachN n ⊆ d.reachN (n + 1) := by
  rw [Dfa.reachN, Dfa.reachStep]
  exact Finset.subset_union_left

theorem reachN_mono (d : Dfa) : ∀ {n m : Nat}, n ≤ m → d.reachN n ⊆ d.reachN m := by
  intro n m h
  induction m with
  | zero =>
    have : n = 0 := Nat.le_zero.mp h
    subst this
    exact Finset.Subset.refl _
  | succ k ih =>
    by_cases hk : n ≤ k
    · exact (ih hk).trans (reachN_subset_succ d k)
    · have : n = k + 1 := by omega
      subst this
      exact Finset.Subset.refl _

theorem reachN_subset_states (d : Dfa) (hv : d.valid) :
    ∀ n, d.reachN n ⊆ d.states := by
  intro n
  induction n with
  | zero =>
    rw [Dfa.reachN]
    exact Finset.singleton_subset_iff.mpr hv.1
  | succ k ih =>
    rw [Dfa.reachN, Dfa.reachStep]
    apply Finset.union_subset ih
    intro x hx
    rw [List.mem_toFinset] at hx
    obtain ⟨e, he, rfl⟩ := List.mem_map.mp hx
    exact (hv.2.2 e (List.mem_of_mem_filter he)).2.2

theorem reach_subset_states (d : Dfa) (hv : d.valid) : d.reach ⊆ d.states :=
  reachN_subset_states d hv _

theorem reachN_stab_propagate (d : Dfa) {n : Nat}
    (h : d.reachN (n + 1) = d.reachN n) :
    ∀ m, n ≤ m → d.reachN m = d.reachN n := by
  intro m hm
  induction m with
  | zero =>
    have : n = 0 := Nat.le_zero.mp hm
    rw [this]
  | succ k ih =>
    by_cases hk : n ≤ k
    · calc d.reachN (k + 1) = d.reachStep (d.reachN k) := rfl
        _ = d.reachStep (d.reachN n) := by rw [ih hk]
        _ = d.reachN (n + 1) := rfl
        _ = d.reachN n := h
    · have : n = k + 1 := by omega
      rw [this]

theorem reachStep_reach (d : Dfa) (hv : d.valid) : d.reachStep d.reach = d.reach := by
  obtain ⟨n, hn, hstab⟩ := finset_chain_stab d.reachN d.states
    (reachN_subset_succ d) (reachN_subset_states d hv)
  have h1 : d.reach = d.reachN n := reachN_stab_propagate d hstab d.states.card hn
  calc d.reachStep d.reach = d.reachStep (d.reachN n) := by rw [h1]
    _ = d.reachN (n + 1) := rfl
    _ = d.reachN n := hstab
    _ = d.reach := h1.symm

theorem start_mem_reach (d : Dfa) : d.start ∈ d.reach := by
  have h0 : d.start ∈ d.reachN 0 := by
    rw [Dfa.reachN]
    exact Finset.mem_singleton_self _
  exact reachN_mono d (Nat.zero_le _) h0

theorem delta_target_mem_reach (d : Dfa) (hv : d.valid) {q t a : String}
    (hq : q ∈ d.reach) (ht : d.delta q a = some t) : t ∈ d.reach := by
  have hmem : ((q, a), t) ∈ d.transitions := lookupKey_mem ht
  have hstep : t ∈ d.reachStep d.reach := by
    rw [Dfa.reachStep]
    apply Finset.mem_union_right
    rw [List.mem_toFinset]
    exact List.mem_map.mpr ⟨((q, a), t),
      List.mem_filter.mpr ⟨hmem, by simp [hq]⟩, rfl⟩
  rwa [reachStep_reach d hv] at hstep

theorem delta_symbol_mem_alphabet (d : Dfa) (hv : d.valid) {q t a : String}
    (ht : d.delta q a = some t) : a ∈ d.alphabet :=
  (hv.2.2 _ (lookupKey_mem ht)).2.1

/-! ## Refinement relation lemmas -/

theorem rel_refl (d : Dfa) : ∀ (n : Nat) (q : String), d.rel n q q = true := by
  intro n
  induction n with
  | zero => intro q; simp [Dfa.rel]
  | succ k ih =>
    intro q
    rw [Dfa.rel, Dfa.relStep, Bool.and_eq_true]
    refine ⟨ih q, ?_⟩
    rw [List.all_eq_true]
    intro a _
    cases h : d.delta q a with
    | none => rfl
    | some t => exact ih t

theorem rel_symm (d : Dfa) : ∀ (n : Nat) (q q' : String),
    d.rel n q q' = true → d.rel n q' q = true := by
  intro n
  induction n with
  | zero =>
    intro q q' h
    rw [Dfa.rel] at h ⊢
    rw [decide_eq_true_eq] at h
    rw [decide_eq_true_eq]
    exact h.symm
  | succ k ih =>
    intro q q' h
    rw [Dfa.rel, Dfa.relStep, Bool.and_eq_true] at h ⊢
    obtain ⟨h1, h2⟩ := h
    rw [List.all_eq_true] at h2 ⊢
    refine ⟨ih q q' h1, ?_⟩
    intro a ha
    have h3 := h2 a ha
    cases hq : d.delta q a with
    | none =>
      cases hq' : d.delta q' a with
      | none => rfl
      | some t' => rw [hq, hq'] at h3; cases h3
    | some t =>
      cases hq' : d.delta q' a with
      | none => rw [hq, hq'] at h3; cases h3
      | some t' =>
        rw [hq, hq'] at h3
        exact ih t t' h3

theorem rel_trans (d : Dfa) : ∀ (n : Nat) (q q' q'' : String),
    d.rel n q q' = true → d.rel n q' q'' = true → d.rel n q q'' = true := by
  intro n
  induction n with
  | zero =>
    intro q q' q'' h1 h2
    rw [Dfa.rel, decide_eq_true_eq] at h1 h2 ⊢
    exact h1.trans h2
  | succ k ih =>
    intro q q' q'' h1 h2
    rw [Dfa.rel, Dfa.relStep, Bool.and_eq_true] at h1 h2 ⊢
    obtain ⟨h1a, h1b⟩ := h1
    obtain ⟨h2a, h2b⟩ := h2
    rw [List.all_eq_true] at h1b h2b ⊢
    refine ⟨ih q q' q'' h1a h2a, ?_⟩
    intro a ha
    have g1 := h1b a ha
    have g2 := h2b a ha
    cases hq : d.delta q a with
    | none =>
      cases hq' : d.delta q' a with
      | none =>
        cases hq'' : d.delta q'' a with
        | none => rfl
        | some t'' => rw [hq', hq''] at g2; cases g2
      | some t' => rw [hq, hq'] at g1; cases g1
    | some t =>
      cases hq' : d.delta q' a with
      | none => rw [hq, hq'] at g1; cases g1
      | some t' =>
        cases hq'' : d.delta q'' a with
        | none => rw [hq', hq''] at g2; cases g2
        | some t'' =>
          rw [hq, hq'] at g1
          rw [hq', hq''] at g2
          exact ih t t' t'' g1 g2

theorem rel_succ_imp (d : Dfa) {n : Nat} {q q' : String}
    (h : d.rel (n + 1) q q' = true) : d.rel n q q' = true := by
  rw [Dfa.rel, Dfa.relStep, Bool.and_eq_true] at h
  exact h.1

theorem rel_le_imp (d : Dfa) {q q' : String} : ∀ {n m : Nat}, n ≤ m →
    d.rel m q q' = true → d.rel n q q' = true := by
  intro n m
  induction m generalizing n with
  | zero =>
    intro h hm
    have : n = 0 := Nat.le_zero.mp h
    subst this
    exact hm
  | succ k ih =>
    intro h hm
    by_cases hk : n ≤ k
    · exact ih hk (rel_succ_imp d hm)
    · have : n = k + 1 := by omega
      subst this
      exact hm

/-! ## Stabilization of the refinement -/

theorem distinctPairs_mono (d : Dfa) (n : Nat) :
    d.distinctPairs n ⊆ d.distinctPairs (n + 1) := by
  intro p hp
  rw [Dfa.distinctPairs, Finset.mem_filter] at hp ⊢
  refine ⟨hp.1, ?_⟩
  cases h : d.rel (n + 1) p.1 p.2 with
  | false => rfl
  | true =>
    have h2 := rel_succ_imp d h
    rw [h2] at hp
    cases hp.2

theorem distinctPairs_subset (d : Dfa) (n : Nat) :
    d.distinctPairs n ⊆ d.reach ×ˢ d.reach :=
  Finset.filter_subset _ _

theorem stable_of_distinctPairs_eq (d : Dfa) {n : Nat}
    (h : d.distinctPairs (n + 1) = d.distinctPairs n) :
    ∀ q ∈ d.reach, ∀ q' ∈ d.reach, d.rel (n + 1) q q' = d.rel n q q' := by
  intro q hq q' hq'
  by_cases hr : d.rel n q q' = true
  · rw [hr]
    cases hv : d.rel (n + 1) q q' with
    | true => rfl
    | false =>
      have hmem : (q, q') ∈ d.distinctPairs (n + 1) := by
        rw [Dfa.distinctPairs, Finset.mem_filter]
        exact ⟨Finset.mem_product.mpr ⟨hq, hq'⟩, hv⟩
      rw [h, Dfa.distinctPairs, Finset.mem_filter] at hmem
      rw [hr] at hmem
      cases hmem.2
  · have hrf : d.rel n q q' = false := by
      revert hr
      cases d.rel n q q' <;> simp
    rw [hrf]
    have hmem : (q, q') ∈ d.distinctPairs n := by
      rw [Dfa.distinctPairs, Finset.mem_filter]
      exact ⟨Finset.mem_product.mpr ⟨hq, hq'⟩, hrf⟩
    rw [← h, Dfa.distinctPairs, Finset.mem_filter] at hmem
    exact hmem.2

theorem list_all_congr {α : Type} {l : List α} {f g : α → Bool}
    (h : ∀ x ∈ l, f x = g x) : l.all f = l.all g := by
  induction l with
  | nil => rfl
  | cons a rest ih =>
    rw [List.all_cons, List.all_cons]
    rw [h a (List.mem_cons_self _ _)]
    rw [ih fun x hx => h x (List.mem_cons_of_mem _ hx)]

theorem stable_propagate (d : Dfa) (hv : d.valid) {n : Nat}
    (h : ∀ q ∈ d.reach, ∀ q' ∈ d.reach, d.rel (n + 1) q q' = d.rel n q q') :
    ∀ q ∈ d.reach, ∀ q' ∈ d.reach, d.rel (n + 2) q q' = d.rel (n + 1) q q' := by
  intro q hq q' hq'
  show d.relStep (d.rel (n + 1)) q q' = d.relStep (d.rel n) q q'
  rw [Dfa.relStep, Dfa.relStep]
  rw [h q hq q' hq']
  congr 1
  apply list_all_congr
  intro a _
  cases h1 : d.delta q a with
  | none =>
    cases h2 : d.delta q' a with
    | none => rfl
    | some t' => rfl
  | some t =>
    cases h2 : d.delta q' a with
    | none => rfl
    | some t' =>
      exact h t (delta_target_mem_reach d hv hq h1) t'
        (delta_target_mem_reach d hv hq' h2)

theorem stable_le (d : Dfa) (hv : d.valid) {n : Nat}
    (h : ∀ q ∈ d.reach, ∀ q' ∈ d.reach, d.rel (n + 1) q q' = d.rel n q q') :
    ∀ m, n ≤ m →
      ∀ q ∈ d.reach, ∀ q' ∈ d.reach, d.rel (m + 1) q q' = d.rel m q q' := by
  intro m hm
  induction m with
  | zero =>
    have : n = 0 := Nat.le_zero.mp hm
    subst this
    exact h
  | succ k ih =>
    by_cases hk : n ≤ k
    · exact stable_propagate d hv (ih hk)
    · have : n = k + 1 := by omega
      subst this
      exact h

theorem relFinal_stable (d : Dfa) (hv : d.valid) :
    ∀ q ∈ d.reach, ∀ q' ∈ d.reach,
      d.rel (d.states.card * d.states.card + 1) q q' = d.relFinal q q' := by
  obtain ⟨n, hn, hstab⟩ := finset_chain_stab d.distinctPairs
    (d.reach ×ˢ d.reach) (distinctPairs_mono d) (distinctPairs_subset d)
  have hK : n ≤ d.states.card * d.states.card := by
    calc n ≤ (d.reach ×ˢ d.reach).card := hn
      _ = d.reach.card * d.reach.card := Finset.card_product _ _
      _ ≤ d.states.card * d.states.card :=
        Nat.mul_le_mul (Finset.card_le_card (reach_subset_states d hv))
          (Finset.card_le_card (reach_subset_states d hv))
  exact stable_le d hv (stable_of_distinctPairs_eq d hstab) _ hK

/-! ## Congruence of the final refinement relation -/

theorem relFinal_acc (d : Dfa) {q q' : String}
    (h : d.relFinal q q' = true) : q ∈ d.accepting ↔ q' ∈ d.accepting := by
  have h0 : d.rel 0 q q' = true := rel_le_imp d (Nat.zero_le _) h
  rw [Dfa.rel, decide_eq_true_eq] at h0
  exact h0

theorem relFinal_delta (d : Dfa) (hv : d.valid) {q q' : String}
    (hq : q ∈ d.reach) (hq' : q' ∈ d.reach)
    (h : d.relFinal q q' = true) (a : String) :
    (d.delta q a = none ∧ d.delta q' a = none) ∨
    (∃ t t', d.delta q a = some t ∧ d.delta q' a = some t' ∧
      d.relFinal t t' = true) := by
  by_cases ha : a ∈ d.alphabet
  · have hK : d.rel (d.states.card * d.states.card + 1) q q' = true := by
      rw [relFinal_stable d hv q hq q' hq']
      exact h
    rw [Dfa.rel, Dfa.relStep, Bool.and_eq_true] at hK
    rw [List.all_eq_true] at hK
    have hsig := hK.2 a (by rwa [Finset.mem_sort])
    cases h1 : d.delta q a with
    | none =>
      cases h2 : d.delta q' a with
      | none => exact Or.inl ⟨rfl, rfl⟩
      | some t' => rw [h1, h2] at hsig; cases hsig
    | some t =>
      cases h2 : d.delta q' a with
      | none => rw [h1, h2] at hsig; cases hsig
      | some t' =>
        rw [h1, h2] at hsig
        exact Or.inr ⟨t, t', rfl, rfl, hsig⟩
  · left
    constructor
    · cases h1 : d.delta q a with
      | none => rfl
      | some t => exact absurd (delta_symbol_mem_alphabet d hv h1) ha
    · cases h1 : d.delta q' a with
      | none => rfl
      | some t => exact absurd (delta_symbol_mem_alphabet d hv h1) ha

/-! ## Representative lemmas -/

theorem mem_blockOf_iff (d : Dfa) {q p : String} :
    p ∈ d.blockOf q ↔ p ∈ d.reach ∧ d.relFinal q p = true := by
  rw [Dfa.blockOf, Finset.mem_filter]

theorem blockOf_nonempty (d : Dfa) {q : String} (hq : q ∈ d.reach) :
    (d.blockOf q).Nonempty := by
  refine ⟨q, ?_⟩
  rw [mem_blockOf_iff]
  exact ⟨hq, rel_refl d _ q⟩

theorem rep_mem_blockOf (d : Dfa) {q : String} (hq : q ∈ d.reach) :
    d.rep q ∈ d.blockOf q := by
  rw [Dfa.rep, dif_pos (blockOf_nonempty d hq)]
  exact Finset.min'_mem _ _

theorem rep_spec (d : Dfa) {q : String} (hq : q ∈ d.reach) :
    d.rep q ∈ d.reach ∧ d.relFinal q (d.rep q) = true := by
  have h := rep_mem_blockOf d hq
  rw [mem_blockOf_iff] at h
  exact h

theorem blockOf_eq_of_rel (d : Dfa) {q q' : String}
    (h : d.relFinal q q' = true) : d.blockOf q = d.blockOf q' := by
  ext x
  rw [mem_blockOf_iff, mem_blockOf_iff]
  constructor
  · rintro ⟨hx, hr⟩
    exact ⟨hx, rel_trans d _ _ _ _ (rel_symm d _ _ _ h) hr⟩
  · rintro ⟨hx, hr⟩
    exact ⟨hx, rel_trans d _ _ _ _ h hr⟩

theorem rep_eq_of_rel (d : Dfa) {q q' : String} (hq : q ∈ d.reach)
    (h : d.relFinal q q' = true) : d.rep q = d.rep q' := by
  have hb := blockOf_eq_of_rel d h
  have hne : (d.blockOf q).Nonempty := blockOf_nonempty d hq
  have hne2 : (d.blockOf q').Nonempty := hb ▸ hne
  rw [Dfa.rep, Dfa.rep, dif_pos hne, dif_pos hne2]
  simp only [hb]

theorem rel_of_rep_eq (d : Dfa) {q q' : String} (hq : q ∈ d.reach)
    (hq' : q' ∈ d.reach) (h : d.rep q = d.rep q') : d.relFinal q q' = true := by
  have h1 := (rep_mem_blockOf d hq)
  have h2 := (rep_mem_blockOf d hq')
  rw [← h] at h2
  rw [mem_blockOf_iff] at h1 h2
  exact rel_trans d _ _ _ _ h1.2 (rel_symm d _ _ _ h2.2)

/-! ## The minimal automaton simulates the original one -/

theorem mem_minimal_transitions (d : Dfa) {x : (String × String) × String} :
    x ∈ d.minimal.transitions ↔
      ∃ e ∈ d.transitions, e.1.1 ∈ d.reach ∧
        x = ((d.rep e.1.1, e.1.2), d.rep e.2) := by
  simp only [Dfa.minimal]
  rw [List.mem_dedup, List.mem_map]
  constructor
  · rintro ⟨e, he, rfl⟩
    have hf := List.mem_filter.mp he
    exact ⟨e, hf.1, of_decide_eq_true hf.2, rfl⟩
  · rintro ⟨e, he, hr, rfl⟩
    exact ⟨e, List.mem_filter.mpr ⟨he, decide_eq_true hr⟩, rfl⟩

theorem minimal_delta (d : Dfa) (hv : d.valid) (hnd : keysNodup d.transitions)
    {q : String} (hq : q ∈ d.reach) (a : String) :
    d.minimal.delta (d.rep q) a = Option.map d.rep (d.delta q a) := by
  cases hda : d.delta q a with
  | none =>
    show d.minimal.delta (d.rep q) a = none
    rw [Dfa.delta, lookupKey_eq_none]
    intro v hvmem
    rw [mem_minimal_transitions] at hvmem
    obtain ⟨e, he, her, heq⟩ := hvmem
    obtain ⟨⟨q2, a2⟩, t2⟩ := e
    injection heq with heq1 heq2
    injection heq1 with hq1 ha1
    subst ha1
    have hd2 : d.delta q2 a = some t2 := mem_lookupKey hnd he
    have hrel : d.relFinal q q2 = true := rel_of_rep_eq d hq her hq1
    rcases relFinal_delta d hv hq her hrel a with ⟨hn1, hn2⟩ | ⟨t, t', hs1, hs2, _⟩
    · rw [hd2] at hn2; cases hn2
    · rw [hda] at hs1; cases hs1
  | some t =>
    show d.minimal.delta (d.rep q) a = some (d.rep t)
    rw [Dfa.delta]
    apply lookupKey_of_forall_eq
    · rw [mem_minimal_transitions]
      exact ⟨((q, a), t), lookupKey_mem hda, hq, rfl⟩
    · intro v2 hv2
      rw [mem_minimal_transitions] at hv2
      obtain ⟨e, he, her, heq⟩ := hv2
      obtain ⟨⟨q2, a2⟩, t2⟩ := e
      injection heq with heq1 heq2
      injection heq1 with hq1 ha1
      subst ha1
      subst heq2
      have hd2 : d.delta q2 a = some t2 := mem_lookupKey hnd he
      have hrel : d.relFinal q q2 = true := rel_of_rep_eq d hq her hq1
      rcases relFinal_delta d hv hq her hrel a with ⟨hn1, _⟩ | ⟨tA, tB, hs1, hs2, hrt⟩
      · rw [hda] at hn1; cases hn1
      · rw [hda] at hs1
        injection hs1 with hs1
        rw [hd2] at hs2
        injection hs2 with hs2
        subst hs1
        subst hs2
        exact (rep_eq_of_rel d (delta_target_mem_reach d hv hq hda) hrt).symm

theorem minimal_accepting (d : Dfa) {q : String} (hq : q ∈ d.reach) :
    d.rep q ∈ d.minimal.accepting ↔ q ∈ d.accepting := by
  show d.rep q ∈ (d.accepting ∩ d.reach).image d.rep ↔ _
  constructor
  · intro h
    obtain ⟨q0, hq0, heq⟩ := Finset.mem_image.mp h
    have hq0i := Finset.mem_inter.mp hq0
    have hrel : d.relFinal q0 q = true := rel_of_rep_eq d hq0i.2 hq heq
    exact (relFinal_acc d hrel).mp hq0i.1
  · intro h
    exact Finset.mem_image.mpr ⟨q, Finset.mem_inter.mpr ⟨h, hq⟩, rfl⟩

theorem minimal_sim (d : Dfa) (hv : d.valid) (hnd : keysNodup d.transitions) :
    ∀ (s : List String) (q : String), q ∈ d.reach →
      (d.minimal.runFrom (d.rep q) s).1 = (d.runFrom q s).1 := by
  intro s
  induction s with
  | nil =>
    intro q hq
    show decide (d.rep q ∈ d.minimal.accepting) = decide (q ∈ d.accepting)
    exact decide_eq_decide.mpr (minimal_accepting d hq)
  | cons a rest ih =>
    intro q hq
    simp only [Dfa.runFrom]
    rw [minimal_delta d hv hnd hq a]
    cases hda : d.delta q a with
    | none => rfl
    | some t => exact ih t (delta_target_mem_reach d hv hq hda)

/-! ## Structural identity of inputs gives identical results -/

theorem structEquiv_delta (d d2 : Dfa) (h : structEquiv d d2)
    (hnd : keysNodup d.transitions) (q a : String) :
    d.delta q a = d2.delta q a := by
  rw [Dfa.delta, Dfa.delta]
  exact lookupKey_perm hnd h.2.2.1

theorem structEquiv_runFrom (d d2 : Dfa) (h : structEquiv d d2)
    (hnd : keysNodup d.transitions) :
    ∀ (s : List String) (q : String), d.runFrom q s = d2.runFrom q s := by
  intro s
  induction s with
  | nil =>
    intro q
    simp only [Dfa.runFrom]
    rw [h.2.2.2.2]
  | cons a rest ih =>
    intro q
    simp only [Dfa.runFrom]
    rw [structEquiv_delta d d2 h hnd q a]
    cases hda : d2.delta q a with
    | none => rfl
    | some t =>
      show ((d.runFrom t rest).1, q :: (d.runFrom t rest).2) =
        ((d2.runFrom t rest).1, q :: (d2.runFrom t rest).2)
      rw [ih t]

theorem structEquiv_check (d d2 : Dfa) (h : structEquiv d d2)
    (hnd : keysNodup d.transitions) (s : List String) :
    d.check s = d2.check s := by
  rw [Dfa.check, Dfa.check, h.2.2.2.1, structEquiv_runFrom d d2 h hnd]

theorem structEquiv_validateE (d d2 : Dfa) (h : structEquiv d d2) :
    d.validateE = d2.validateE := by
  obtain ⟨hs, ha, hp, hst, hac⟩ := h
  have hc : (∀ e ∈ d.transitions,
        e.1.1 ∈ d.states ∧ e.1.2 ∈ d.alphabet ∧ e.2 ∈ d.states) =
      (∀ e ∈ d2.transitions,
        e.1.1 ∈ d.states ∧ e.1.2 ∈ d.alphabet ∧ e.2 ∈ d.states) := by
    apply propext
    constructor
    · intro hh e he
      exact hh e (hp.mem_iff.mpr he)
    · intro hh e he
      exact hh e (hp.mem_iff.mp he)
  rw [Dfa.validateE, Dfa.validateE, ← hs, ← ha, ← hst, ← hac]
  simp only [hc]

theorem structEquiv_reachStep (d d2 : Dfa) (hp : d.transitions.Perm d2.transitions)
    (R : Finset String) : d.reachStep R = d2.reachStep R := by
  rw [Dfa.reachStep, Dfa.reachStep]
  congr 1
  ext x
  rw [List.mem_toFinset, List.mem_toFinset]
  constructor
  · intro hx
    obtain ⟨e, he, rfl⟩ := List.mem_map.mp hx
    have hf := List.mem_filter.mp he
    exact List.mem_map.mpr ⟨e, List.mem_filter.mpr ⟨hp.mem_iff.mp hf.1, hf.2⟩, rfl⟩
  · intro hx
    obtain ⟨e, he, rfl⟩ := List.mem_map.mp hx
    have hf := List.mem_filter.mp he
    exact List.mem_map.mpr ⟨e, List.mem_filter.mpr ⟨hp.mem_iff.mpr hf.1, hf.2⟩, rfl⟩

theorem structEquiv_reach (d d2 : Dfa) (h : structEquiv d d2) :
    d.reach = d2.reach := by
  have hn : ∀ n, d.reachN n = d2.reachN n := by
    intro n
    induction n with
    | zero => rw [Dfa.reachN, Dfa.reachN, h.2.2.2.1]
    | succ k ih =>
      rw [Dfa.reachN, Dfa.reachN, ih, structEquiv_reachStep d d2 h.2.2.1]
  rw [Dfa.reach, Dfa.reach, h.1, hn]

theorem structEquiv_rel (d d2 : Dfa) (h : structEquiv d d2)
    (hnd : keysNodup d.transitions) :
    ∀ (n : Nat) (q q' : String), d.rel n q q' = d2.rel n q q' := by
  intro n
  induction n with
  | zero =>
    intro q q'
    rw [Dfa.rel, Dfa.rel, h.2.2.2.2]
  | succ k ih =>
    intro q q'
    rw [Dfa.rel, Dfa.rel, Dfa.relStep, Dfa.relStep, ih q q', h.2.1]
    congr 1
    apply list_all_congr
    intro a _
    rw [structEquiv_delta d d2 h hnd q a, structEquiv_delta d d2 h hnd q' a]
    cases d2.delta q a with
    | none =>
      cases d2.delta q' a with
      | none => rfl
      | some t' => rfl
    | some t =>
      cases d2.delta q' a with
      | none => rfl
      | some t' => exact ih t t'

theorem structEquiv_relFinal (d d2 : Dfa) (h : structEquiv d d2)
    (hnd : keysNodup d.transitions) (q q' : String) :
    d.relFinal q q' = d2.relFinal q q' := by
  rw [Dfa.relFinal, Dfa.relFinal, h.1, structEquiv_rel d d2 h hnd]

theorem structEquiv_rep (d d2 : Dfa) (h : structEquiv d d2)
    (hnd : keysNodup d.transitions) (q : String) : d.rep q = d2.rep q := by
  have hb : d.blockOf q = d2.blockOf q := by
    rw [Dfa.blockOf, Dfa.blockOf, structEquiv_reach d d2 h]
    apply Finset.filter_congr
    intro x _
    rw [structEquiv_relFinal d d2 h hnd q x]
  rw [Dfa.rep, Dfa.rep, hb]

theorem structEquiv_renamingOps (d d2 : Dfa) (h : structEquiv d d2)
    (hnd : keysNodup d.transitions) : d.renamingOps = d2.renamingOps := by
  rw [Dfa.renamingOps, Dfa.renamingOps, structEquiv_reach d d2 h]
  apply List.map_congr_left
  intro q _
  rw [structEquiv_rep d d2 h hnd]

theorem structEquiv_minimal (d d2 : Dfa) (h : structEquiv d d2)
    (hnd : keysNodup d.transitions) : structEquiv d.minimal d2.minimal := by
  have hreach := structEquiv_reach d d2 h
  have hrep : ∀ q, d.rep q = d2.rep q := structEquiv_rep d d2 h hnd
  refine ⟨?_, h.2.1, ?_, ?_, ?_⟩
  · show d.reach.image d.rep = d2.reach.image d2.rep
    rw [← hreach]
    apply Finset.image_congr
    intro x _
    exact hrep x
  · show (((d.transitions.filter fun e => decide (e.1.1 ∈ d.reach)).map
        fun e => ((d.rep e.1.1, e.1.2), d.rep e.2)).dedup).Perm
      (((d2.transitions.filter fun e => decide (e.1.1 ∈ d2.reach)).map
        fun e => ((d2.rep e.1.1, e.1.2), d2.rep e.2)).dedup)
    have hm := ((h.2.2.1.filter fun e => decide (e.1.1 ∈ d.reach)).map
      fun e : (String × String) × String => ((d.rep e.1.1, e.1.2), d.rep e.2)).dedup
    have heq : ((d2.transitions.filter fun e => decide (e.1.1 ∈ d.reach)).map
        fun e : (String × String) × String => ((d.rep e.1.1, e.1.2), d.rep e.2)) =
        ((d2.transitions.filter fun e => decide (e.1.1 ∈ d2.reach)).map
        fun e : (String × String) × String => ((d2.rep e.1.1, e.1.2), d2.rep e.2)) := by
      rw [← hreach]
      apply List.map_congr_left
      intro e _
      rw [hrep, hrep]
    rw [heq] at hm
    exact hm
  · show d.rep d.start = d2.rep d2.start
    rw [hrep, h.2.2.2.1]
  · show (d.accepting ∩ d.reach).image d.rep = (d2.accepting ∩ d2.reach).image d2.rep
    rw [← h.2.2.2.2, ← hreach]
    apply Finset.image_congr
    intro x _
    exact hrep x

theorem aggregateT_perm {ops ops2 : List (String × String)} (hp : ops.Perm ops2)
    (n : String) : aggregateT ops n = aggregateT ops2 n := by
  rw [aggregateT_char, aggregateT_char]
  have hfp := hp.filter fun p => decide (p.2 = n)
  by_cases hf : (ops.filter fun p => decide (p.2 = n)) = []
  · rw [if_pos hf]
    rw [hf] at hfp
    have h2 : (ops2.filter fun p => decide (p.2 = n)) = [] := hfp.symm.eq_nil
    rw [if_pos h2]
  · rw [if_neg hf]
    have h2 : ¬ (ops2.filter fun p => decide (p.2 = n)) = [] := by
      intro hh
      rw [hh] at hfp
      exact hf hfp.eq_nil
    rw [if_neg h2]
    congr 1
    ext x
    rw [List.mem_toFinset, List.mem_toFinset]
    exact (hfp.map Prod.fst).mem_iff

/-! ## Claim theorems and witnesses -/

/-- C10: the aggregation loop of the minimize handler never hits the panic
branch of the unwrap after inserting a fresh empty set: `aggregate` succeeds
on every renaming list. -/
theorem claim_C10_unwrap_never_panics :
    ∀ ops : List (String × String), (aggregate ops).isSome = true := by
  intro ops
  rw [aggregate_eq]
  rfl

/-- C1: for every renaming map with distinct keys (as any Rust hash map
has), an old name belongs to the aggregated set of a new name exactly when
the renaming maps the old name to that new name; and the minimize handler
returns this aggregated mapping, not the raw renaming map. -/
theorem claim_C1_groups_iff_renaming :
    (∀ ops : List (String × String), keysNodup ops → ∀ o n : String,
      (o ∈ (aggregateT ops n).getD ∅ ↔ lookupKey ops o = some n)) ∧
    (∀ d : Dfa, d.validateE = none →
      minimizeHandler d = some (Except.ok (d.minimal, aggregateT d.renamingOps))) := by
  constructor
  · intro ops hnd o n
    rw [mem_aggregateT]
    exact ⟨mem_lookupKey hnd, lookupKey_mem⟩
  · intro d h
    simp [minimizeHandler, h, clone, Dfa.minimizeMut, aggregate_eq]

theorem claim_C1_witness :
    keysNodup [("q1", "q0"), ("q2", "q0")] ∧
    ("q1" ∈ (aggregateT [("q1", "q0"), ("q2", "q0")] "q0").getD ∅ ↔
      lookupKey [("q1", "q0"), ("q2", "q0")] "q1" = some "q0") :=
  ⟨by decide, claim_C1_groups_iff_renaming.1 _ (by decide) "q1" "q0"⟩

/-- C2: for every renaming map with distinct keys, the aggregated groups
partition the key set: an old name has a group exactly when it is a key, the
groups of distinct new names are disjoint, and every key lies in exactly one
group. -/
theorem claim_C2_partition :
    ∀ ops : List (String × String), keysNodup ops →
      (∀ o : String, (∃ n, o ∈ (aggregateT ops n).getD ∅) ↔ o ∈ ops.map Prod.fst) ∧
      (∀ n n2 : String, n ≠ n2 →
        Disjoint ((aggregateT ops n).getD ∅) ((aggregateT ops n2).getD ∅)) ∧
      (∀ o ∈ ops.map Prod.fst, ∃! n, o ∈ (aggregateT ops n).getD ∅) := by
  intro ops hnd
  refine ⟨?_, ?_, ?_⟩
  · intro o
    simp only [mem_aggregateT]
    constructor
    · rintro ⟨n, hn⟩
      exact List.mem_map.mpr ⟨(o, n), hn, rfl⟩
    · intro h
      obtain ⟨p, hp, rfl⟩ := List.mem_map.mp h
      exact ⟨p.2, by rw [Prod.mk.eta]; exact hp⟩
  · intro n n2 hne
    rw [Finset.disjoint_left]
    intro o h1 h2
    rw [mem_aggregateT] at h1 h2
    have e1 := mem_lookupKey hnd h1
    have e2 := mem_lookupKey hnd h2
    rw [e1] at e2
    injection e2 with e2
    exact hne e2
  · intro o ho
    obtain ⟨p, hp, rfl⟩ := List.mem_map.mp ho
    refine ⟨p.2, ?_, ?_⟩
    · show p.1 ∈ (aggregateT ops p.2).getD ∅
      rw [mem_aggregateT, Prod.mk.eta]
      exact hp
    · intro n hn
      have hn2 : p.1 ∈ (aggregateT ops n).getD ∅ := hn
      rw [mem_aggregateT] at hn2
      have e1 := mem_lookupKey hnd hn2
      have e2 := mem_lookupKey hnd (show (p.1, p.2) ∈ ops by rw [Prod.mk.eta]; exact hp)
      rw [e1] at e2
      exact Option.some.inj e2

theorem claim_C2_witness :
    keysNodup [("q0", "q0"), ("q1", "q0")] ∧
    ((∃ n, "q1" ∈ (aggregateT [("q0", "q0"), ("q1", "q0")] n).getD ∅) ↔
      "q1" ∈ ([("q0", "q0"), ("q1", "q0")].map Prod.fst)) :=
  ⟨by decide, (claim_C2_partition _ (by decide)).1 "q1"⟩

/-- C3: every set stored in the aggregated groups mapping is non-empty. -/
theorem claim_C3_groups_nonempty :
    ∀ (ops : List (String × String)) (n : String) (s : Finset String),
      aggregateT ops n = some s → s.Nonempty := by
  intro ops n s h
  rw [aggregateT_char] at h
  by_cases hf : (ops.filter fun p => decide (p.2 = n)) = []
  · rw [if_pos hf] at h
    cases h
  · rw [if_neg hf] at h
    injection h with h
    subst h
    obtain ⟨p, hp⟩ := List.exists_mem_of_ne_nil _ hf
    exact ⟨p.1, List.mem_toFinset.mpr (List.mem_map.mpr ⟨p, hp, rfl⟩)⟩

theorem claim_C3_witness :
    aggregateT [("q0", "q0")] "q0" = some ({"q0"} : Finset String) ∧
    ({"q0"} : Finset String).Nonempty :=
  ⟨by decide, claim_C3_groups_nonempty [("q0", "q0")] "q0" _ (by decide)⟩

/-- C4: an automaton that fails structural validation is rejected by both
the check handler and the minimize handler with the MalformedAutomaton
error, before any simulation or refinement result is produced. -/
theorem claim_C4_malformed_rejected :
    ∀ (d : Dfa) (e : MalformedAutomaton) (input : List String),
      d.validateE = some e →
      checkHandler d input = Except.error e ∧
      minimizeHandler d = some (Except.error e) := by
  intro d e input h
  constructor
  · simp [checkHandler, h]
  · simp [minimizeHandler, h]

theorem claim_C4_witness :
    dfaBad.validateE = some MalformedAutomaton.invalidStart ∧
    checkHandler dfaBad ["a"] = Except.error MalformedAutomaton.invalidStart ∧
    minimizeHandler dfaBad = some (Except.error MalformedAutomaton.invalidStart) :=
  ⟨by decide, claim_C4_malformed_rejected dfaBad MalformedAutomaton.invalidStart ["a"]
    (by decide)⟩

/-- C5: for a validated automaton the check handler never fails, whatever
the input string: it returns the simulation result, and an unrecognized
symbol or stuck run shows up as a non-accepted result with a shortened
trace, not as a call-level error. -/
theorem claim_C5_input_never_fails :
    ∀ (d : Dfa) (input : List String), d.validateE = none →
      checkHandler d input = Except.ok (d.check input) ∧
      (d.stuckFrom d.start input = true →
        (d.check input).1 = false ∧ (d.check input).2.length ≤ input.length) := by
  intro d input h
  constructor
  · simp [checkHandler, h]
  · intro hstuck
    constructor
    · exact stuck_not_accept d input d.start hstuck
    · rw [Dfa.check, runFrom_trace_length]
      have hne : d.consumedFrom d.start input ≠ input.length := by
        intro he
        rw [← stuckFrom_false_iff] at he
        rw [he] at hstuck
        cases hstuck
      have hle := consumedFrom_le d input d.start
      exact Nat.succ_le_of_lt (Nat.lt_of_le_of_ne hle hne)

theorem claim_C5_witness :
    dfaEx.validateE = none ∧
    checkHandler dfaEx ["b"] = Except.ok (dfaEx.check ["b"]) :=
  ⟨by decide, (claim_C5_input_never_fails dfaEx ["b"] (by decide)).1⟩

/-- C6: the minimize handler never mutates the caller-supplied automaton
value: the library's in-place minimization is applied to a fresh clone of
the input, the `dfa` binding itself is left unchanged, and cloning a plain
data value yields an equal value. -/
theorem claim_C6_input_not_mutated :
    ∀ d : Dfa, (minimizeBodyWithInput d).2 = d ∧ clone d = d ∧
      (minimizeBodyWithInput d).1 = (clone d).minimizeMut :=
  fun _ => ⟨rfl, rfl, rfl⟩

/-- C9: for a validated automaton, the trace returned by check has length
equal to the number of consumed symbols plus one; it has length input
length plus one whenever the input is accepted, and it is strictly shorter
than input length plus one exactly when the run gets stuck. -/
theorem claim_C9_trace_alignment :
    ∀ (d : Dfa) (s : List String), d.valid →
      ((d.check s).1 = true → (d.check s).2.length = s.length + 1) ∧
      (d.check s).2.length = d.consumedFrom d.start s + 1 ∧
      ((d.check s).2.length < s.length + 1 ↔ d.stuckFrom d.start s = true) := by
  intro d s _
  refine ⟨?_, runFrom_trace_length d s d.start, ?_⟩
  · intro hacc
    rw [Dfa.check, runFrom_trace_length]
    have := accept_not_stuck d s d.start hacc
    rw [stuckFrom_false_iff] at this
    rw [this]
  · rw [Dfa.check, runFrom_trace_length]
    have hle := consumedFrom_le d s d.start
    constructor
    · intro hlt
      have hne : d.consumedFrom d.start s ≠ s.length := by
        intro he
        rw [he] at hlt
        exact Nat.lt_irrefl _ hlt
      cases hst : d.stuckFrom d.start s with
      | true => rfl
      | false =>
        rw [stuckFrom_false_iff] at hst
        exact absurd hst hne
    · intro hst
      have hne : d.consumedFrom d.start s ≠ s.length := by
        intro he
        rw [← stuckFrom_false_iff] at he
        rw [he] at hst
        cases hst
      exact Nat.add_lt_add_right (Nat.lt_of_le_of_ne hle hne) 1

/-- C7: structurally identical inputs (equal sets and maps, any key order)
give identical results: equal check handler results, equal validation
verdicts, structurally identical minimal automata and equal renaming maps;
in particular the aggregation of the renaming pairs into groups does not
depend on the order in which the pairs are visited. -/
theorem claim_C7_determinism :
    (∀ ops ops2 : List (String × String), ops.Perm ops2 →
      ∀ n : String, aggregateT ops n = aggregateT ops2 n) ∧
    (∀ d d2 : Dfa, structEquiv d d2 → keysNodup d.transitions →
      (∀ s, checkHandler d s = checkHandler d2 s) ∧
      d.validateE = d2.validateE ∧
      structEquiv d.minimal d2.minimal ∧
      d.renamingOps = d2.renamingOps) := by
  constructor
  · intro ops ops2 hp n
    exact aggregateT_perm hp n
  · intro d d2 h hnd
    refine ⟨?_, structEquiv_validateE d d2 h, structEquiv_minimal d d2 h hnd,
      structEquiv_renamingOps d d2 h hnd⟩
    intro s
    rw [checkHandler, checkHandler, structEquiv_validateE d d2 h]
    cases d2.validateE with
    | some e => rfl
    | none => rw [structEquiv_check d d2 h hnd]

theorem claim_C7_witness :
    ([("q1", "n"), ("q2", "n")] : List (String × String)).Perm
      [("q2", "n"), ("q1", "n")] ∧
    aggregateT [("q1", "n"), ("q2", "n")] "n" =
      aggregateT [("q2", "n"), ("q1", "n")] "n" :=
  ⟨by decide, claim_C7_determinism.1 _ _ (by decide) "n"⟩

/-- C8: for every validated automaton (with the hash-map guarantee of
distinct transition keys) and every input string, the minimal automaton
returned by minimize accepts the input exactly when the original automaton
does. -/
theorem claim_C8_language_preservation :
    ∀ (d : Dfa) (s : List String), d.valid → keysNodup d.transitions →
      (d.check s).1 = ((d.minimizeMut.1).check s).1 := by
  intro d s hv hnd
  show (d.runFrom d.start s).1 = (d.minimal.runFrom d.minimal.start s).1
  have hstart : d.minimal.start = d.rep d.start := rfl
  rw [hstart]
  exact (minimal_sim d hv hnd s d.start (start_mem_reach d)).symm

theorem claim_C8_witness :
    dfaMerge.valid ∧ keysNodup dfaMerge.transitions ∧
    (dfaMerge.check ["a", "b"]).1 = ((dfaMerge.minimizeMut.1).check ["a", "b"]).1 :=
  ⟨by decide, by decide,
    claim_C8_language_preservation dfaMerge ["a", "b"] (by decide) (by decide)⟩

theorem claim_C9_witness :
    dfaEx.valid ∧
    ((dfaEx.check ["a"]).1 = true → (dfaEx.check ["a"]).2.length = 2) :=
  ⟨by decide, (claim_C9_trace_alignment dfaEx ["a"] (by decide)).1⟩

end AutomataExposer
